import Mathlib

/-!
Shallow embedding of the step-analysis review pipeline
(`github_step_analysis.py`, `step_analysis.py`).

Strings are modelled at the character-list level so that the Python string
primitives used by the source (`str.split(sep)`, `str.startswith`, `int(...)`)
become provable recursive functions with the same behavior.
-/

/-- Python `s.split(c)` for a single-character separator: splits on every
occurrence, keeps empty segments, and returns `[[]]` on the empty string
(Python: `"".split(c) == ['']`). -/
def splitOnChar (c : Char) : List Char → List (List Char)
  | [] => [[]]
  | x :: xs =>
    let r := splitOnChar c xs
    if x = c then [] :: r else (x :: r.headD []) :: r.tail

/-- Python `s.startswith(p)`. -/
def pyStartsWith : List Char → List Char → Bool
  | _, [] => true
  | [], _ :: _ => false
  | s :: ss, p :: ps => (s = p) && pyStartsWith ss ps

/-- Python `s.strip()` as applied by `int(...)` to its argument: leading and
trailing whitespace removed. -/
def pyTrim (s : List Char) : List Char :=
  ((s.dropWhile Char.isWhitespace).reverse.dropWhile Char.isWhitespace).reverse

/-- Numeric value of a list of decimal digit characters, most significant
first. -/
def digitsToNat (ds : List Char) : Nat :=
  ds.foldl (fun a c => a * 10 + (c.toNat - 48)) 0

/-- Python `int(s)` returning `none` where Python raises `ValueError`:
whitespace is stripped, one optional sign is allowed, and the rest must be a
nonempty run of decimal digits.  (Python's underscore digit grouping and
non-ASCII decimals are not modelled; no input in this development uses them.) -/
def pyInt? (s : List Char) : Option Int :=
  let t := pyTrim s
  if t = [] then none
  else
    let p := if t.headD ' ' = '-' then (true, t.drop 1)
             else if t.headD ' ' = '+' then (false, t.drop 1)
             else (false, t)
    if p.2 ≠ [] ∧ p.2.all Char.isDigit = true then
      some (if p.1 then -(digitsToNat p.2 : Int) else (digitsToNat p.2 : Int))
    else none

/-- One added/modified line recovered from a patch, as built by
`_extract_changed_content`: the text with the `'+'` marker stripped and the
running line counter at the time it was recorded. -/
structure ChangedLine where
  content : String
  line_number : Int
deriving Repr, DecidableEq

/-- `line.startswith('@@')` from `_extract_changed_content`. -/
def isHunkHeader (line : List Char) : Bool :=
  pyStartsWith line ['@', '@']

/-- `line.startswith('+') and not line.startswith('+++')` from
`_extract_changed_content`. -/
def isAddedLine (line : List Char) : Bool :=
  pyStartsWith line ['+'] && !pyStartsWith line ['+', '+', '+']

/-- `int(line.split('+')[1].split(',')[0])` from `_extract_changed_content`,
with `none` where Python raises `IndexError` (no `'+'` in the line) or
`ValueError` (the text before the first `','` is not an integer literal). -/
def parseHunkNewStart (line : List Char) : Option Int :=
  match splitOnChar '+' line with
  | _ :: second :: _ => pyInt? ((splitOnChar ',' second).headD [])
  | _ => none

/-- The scanning loop of `_extract_changed_content` over the list of patch
lines: a hunk header that parses resets the counter to `new_start - 1`, a hunk
header that does not parse is skipped (`continue`), and every other line
increments the counter and is recorded exactly when it is an added line. -/
def extractLoop (current : Int) : List (List Char) → List ChangedLine
  | [] => []
  | line :: rest =>
    if isHunkHeader line then
      match parseHunkNewStart line with
      | some n => extractLoop (n - 1) rest
      | none => extractLoop current rest
    else
      if isAddedLine line then
        ⟨(line.drop 1).asString, current + 1⟩ :: extractLoop (current + 1) rest
      else
        extractLoop (current + 1) rest

/-- `_extract_changed_content(patch)`: returns `[]` for a falsy (empty) patch,
otherwise scans `patch.split('\n')` with the counter starting at `0`. -/
def extractChangedContent (patch : String) : List ChangedLine :=
  if patch.data = [] then []
  else extractLoop 0 (splitOnChar '\n' patch.data)

/-- Well-ordering of the hunk headers of a patch: every hunk header that
parses resets the counter to a value no smaller than the counter's current
value.  True of every well-formed unified diff, whose hunks appear in
increasing order of their new-file start. -/
def headersOrdered (current : Int) : List (List Char) → Bool
  | [] => true
  | line :: rest =>
    if isHunkHeader line then
      match parseHunkNewStart line with
      | some n => decide (current ≤ n - 1) && headersOrdered (n - 1) rest
      | none => headersOrdered current rest
    else headersOrdered (current + 1) rest

/-- The `StepAnalysis` pydantic model of `step_analysis.py`, as the
dictionary read back by `json.loads` in `_post_analysis_comment`.  The
`confidence` field (a float, unused by every operation modelled here) is
omitted.  Note the source's field name is the singular `line_number`. -/
structure StepAnalysis where
  step_text : String
  issues : List String
  line_number : List Int
  suggestions : List String
deriving Repr, DecidableEq

/-- One review comment as posted by `pr.create_review_comment` in
`_post_analysis_comment`: the file path, the formatted body, and the line. -/
structure ReviewComment where
  path : String
  body : String
  line : Int
deriving Repr, DecidableEq

/-- The f-string body built in `_post_analysis_comment` for one index. -/
def commentBody (issue sugg : String) : String :=
  "\n### Issues Found:\n" ++ issue ++ "\n\n### Suggestions:\n" ++ sugg ++ "\n"

/-- The loop of `_post_analysis_comment` over `enumerate(analysis["issues"])`.
For each index the body interpolates `suggestions[idx]` and the API call reads
`line_number[idx]`; when either index is out of range Python raises
`IndexError` before that comment is posted.  The result pairs the comments
actually posted (in order) with the uncaught exception, if one was raised. -/
def postLoop (path : String) (a : StepAnalysis) :
    Nat → List String → List ReviewComment × Option String
  | _, [] => ([], none)
  | idx, issue :: rest =>
    match a.suggestions[idx]? with
    | none => ([], some "IndexError")
    | some sugg =>
      match a.line_number[idx]? with
      | none => ([], some "IndexError")
      | some ln =>
        let r := postLoop path a (idx + 1) rest
        (⟨path, commentBody issue sugg, ln⟩ :: r.1, r.2)

/-- `_post_analysis_comment(pr, file, analysis, ...)`: iterates over the
issues of the (already JSON-decoded) analysis.  No length validation is
performed before the loop. -/
def postAnalysisComment (path : String) (a : StepAnalysis) :
    List ReviewComment × Option String :=
  postLoop path a 0 a.issues

/-- Python `s.endswith(p)`: `p` is a suffix of `s`. -/
def pyEndsWith (s p : List Char) : Bool :=
  pyStartsWith s.reverse p.reverse

/-- `_is_step_definition(filename)`. -/
def is_step_definition (filename : String) : Bool :=
  pyEndsWith filename.data "Steps.java".data ||
    pyEndsWith filename.data "StepDefinitions.java".data ||
    pyEndsWith filename.data "StepsImpl.java".data ||
    pyEndsWith filename.data "StepDefs.java".data

/-- One element of the `results` list built by `analyze_pull_request`. -/
structure ResultEntry where
  file : String
  analysis : StepAnalysis
  changes : List ChangedLine
deriving Repr, DecidableEq

/-- Observable outcome of a run of `analyze_pull_request`: the review
comments actually posted (side effects that persist even when an exception is
later raised), the files for which `analyzer.analyze_step` was invoked, and
either the returned `results` list or the uncaught exception that aborted the
loop. -/
structure RunOutcome where
  comments : List ReviewComment
  analyzed : List String
  result : Except String (List ResultEntry)
deriving Repr

/-- `analyze_pull_request`, with the pull request's files as a list of
`(filename, patch)` pairs (an absent patch modelled as the falsy `""`) and
the external semantic-analysis capability — `analyzer.analyze_step` applied
to the extracted changed content — as an oracle that either returns a
`StepAnalysis` or raises.  The source wraps no part of the loop in
`try`/`except`, so the first exception (from the oracle or from
`_post_analysis_comment`) propagates: later files are not processed and the
`results` list is never returned. -/
def analyzePullRequest (oracle : List ChangedLine → Except String StepAnalysis) :
    List (String × String) → RunOutcome
  | [] => ⟨[], [], .ok []⟩
  | (fname, patch) :: rest =>
    if is_step_definition fname then
      if patch = "" then analyzePullRequest oracle rest
      else
        let changed := extractChangedContent patch
        if changed = [] then analyzePullRequest oracle rest
        else
          match oracle changed with
          | .error e => ⟨[], [fname], .error e⟩
          | .ok a =>
            match postAnalysisComment fname a with
            | (cs, some e) => ⟨cs, [fname], .error e⟩
            | (cs, none) =>
              let r := analyzePullRequest oracle rest
              ⟨cs ++ r.comments, fname :: r.analyzed,
               r.result.map (⟨fname, a, changed⟩ :: ·)⟩
    else analyzePullRequest oracle rest

/-- `ContextCollector._read_file(path)` over an abstract filesystem
`fs : String → Option String` (`none` where `open`/`read` raises): the
exception is caught, logged, and the empty string returned. -/
def readFile (fs : String → Option String) (path : String) : String :=
  match fs path with
  | some content => content
  | none => ""

/-- `ContextCollector.collect_features`, with the `glob.glob` result for
`**/*.feature` under the project root passed in as `feature_files` (the glob
itself is filesystem behavior outside the embedding). -/
def collect_features (fs : String → Option String) (feature_files : List String) :
    List String :=
  feature_files.map (readFile fs)

/-- `ContextCollector.collect_step_definitions`, with the accumulated
`glob.glob` matches for the step-definition patterns passed in as
`step_files`. -/
def collect_step_definitions (fs : String → Option String) (step_files : List String) :
    List String :=
  step_files.map (readFile fs)

/-! ## Helper lemmas about the string primitives -/

theorem splitOnChar_ne_nil (c : Char) (l : List Char) : splitOnChar c l ≠ [] := by
  cases l with
  | nil => simp [splitOnChar]
  | cons x xs =>
    simp only [splitOnChar]
    split <;> simp

theorem splitOnChar_append (c : Char) (xs ys : List Char) (h : c ∉ xs) :
    splitOnChar c (xs ++ ys)
      = (xs ++ (splitOnChar c ys).headD []) :: (splitOnChar c ys).tail := by
  induction xs with
  | nil =>
    obtain ⟨y, ys', hy⟩ := List.exists_cons_of_ne_nil (splitOnChar_ne_nil c ys)
    simp [hy]
  | cons a t ih =>
    have ha : a ≠ c := fun hac => h (hac ▸ List.mem_cons_self a t)
    have ht : c ∉ t := fun hct => h (List.mem_cons_of_mem a hct)
    simp only [List.cons_append, splitOnChar, List.append_eq]
    rw [ih ht]
    simp [ha]

theorem splitOnChar_append_cons (c : Char) (xs ys : List Char) (h : c ∉ xs) :
    splitOnChar c (xs ++ c :: ys) = xs :: splitOnChar c ys := by
  have hc : splitOnChar c (c :: ys) = [] :: splitOnChar c ys := by
    simp [splitOnChar]
  rw [splitOnChar_append c xs (c :: ys) h, hc]
  simp

theorem digit_ne_minus {c : Char} (h : c.isDigit = true) : c ≠ '-' := by
  intro he; subst he; simp [Char.isDigit] at h

theorem digit_ne_plus {c : Char} (h : c.isDigit = true) : c ≠ '+' := by
  intro he; subst he; simp [Char.isDigit] at h

theorem digit_ne_comma {c : Char} (h : c.isDigit = true) : c ≠ ',' := by
  intro he; subst he; simp [Char.isDigit] at h

theorem digit_not_whitespace {c : Char} (h : c.isDigit = true) :
    c.isWhitespace = false := by
  by_contra hw
  have hw' : c.isWhitespace = true := by
    cases hws : c.isWhitespace with
    | true => rfl
    | false => exact absurd hws hw
  have hcase : c = ' ' ∨ c = '\t' ∨ c = '\r' ∨ c = '\n' := by
    simpa [Char.isWhitespace, or_assoc] using hw'
  rcases hcase with h1 | h1 | h1 | h1 <;> subst h1 <;> simp [Char.isDigit] at h

theorem dropWhile_eq_self_of_all {p : Char → Bool} {l : List Char}
    (h : ∀ c ∈ l, p c = false) : l.dropWhile p = l := by
  cases l with
  | nil => rfl
  | cons a t =>
    rw [List.dropWhile_cons, h a (List.mem_cons_self a t)]
    simp

theorem pyTrim_eq_self_of_digits {l : List Char} (h : l.all Char.isDigit = true) :
    pyTrim l = l := by
  have hws : ∀ c ∈ l, c.isWhitespace = false := fun c hc =>
    digit_not_whitespace (by simpa using List.all_eq_true.mp h c hc)
  unfold pyTrim
  rw [dropWhile_eq_self_of_all hws,
      dropWhile_eq_self_of_all (fun c hc => hws c (List.mem_reverse.mp hc)),
      List.reverse_reverse]

theorem pyInt?_of_digits {ds : List Char} (hne : ds ≠ [])
    (hdig : ds.all Char.isDigit = true) : pyInt? ds = some (digitsToNat ds) := by
  cases ds with
  | nil => exact absurd rfl hne
  | cons d t =>
    have hd : d.isDigit = true := by simpa using (List.all_eq_true.mp hdig d (by simp))
    have h1 : d ≠ '-' := digit_ne_minus hd
    have h2 : d ≠ '+' := digit_ne_plus hd
    have htrim : pyTrim (d :: t) = d :: t := pyTrim_eq_self_of_digits hdig
    simp only [pyInt?, htrim]
    simp [h1, h2, hdig]

theorem parseHunkNewStart_of_shape (pre ds suf : List Char)
    (hpre : '+' ∉ pre) (hne : ds ≠ []) (hdig : ds.all Char.isDigit = true) :
    parseHunkNewStart (pre ++ '+' :: (ds ++ ',' :: suf)) = some (digitsToNat ds) := by
  have hplus_ds : '+' ∉ ds := fun hm =>
    digit_ne_plus (by simpa using List.all_eq_true.mp hdig _ hm) rfl
  have hcomma_ds : ',' ∉ ds := fun hm =>
    digit_ne_comma (by simpa using List.all_eq_true.mp hdig _ hm) rfl
  have hsplit := splitOnChar_append_cons '+' pre (ds ++ ',' :: suf) hpre
  have h1 : '+' ∉ ds ++ [','] := by
    intro hm
    rcases List.mem_append.mp hm with hm | hm
    · exact hplus_ds hm
    · simp at hm
  have hseg : splitOnChar '+' (ds ++ ',' :: suf)
      = ((ds ++ [',']) ++ (splitOnChar '+' suf).headD []) :: (splitOnChar '+' suf).tail := by
    have := splitOnChar_append '+' (ds ++ [',']) suf h1
    simpa using this
  have hsecond : (ds ++ [',']) ++ (splitOnChar '+' suf).headD []
      = ds ++ ',' :: (splitOnChar '+' suf).headD [] := by simp
  simp only [parseHunkNewStart, hsplit, hseg, hsecond]
  rw [splitOnChar_append_cons ',' ds ((splitOnChar '+' suf).headD []) hcomma_ds]
  simpa using pyInt?_of_digits hne hdig

/-! ## Helper lemmas about the extraction loop -/

theorem extractLoop_header_some {line : List Char} {n : Int}
    (hh : isHunkHeader line = true) (hp : parseHunkNewStart line = some n)
    (cur : Int) (rest : List (List Char)) :
    extractLoop cur (line :: rest) = extractLoop (n - 1) rest := by
  simp [extractLoop, hh, hp]

theorem extractLoop_header_none {line : List Char}
    (hh : isHunkHeader line = true) (hp : parseHunkNewStart line = none)
    (cur : Int) (rest : List (List Char)) :
    extractLoop cur (line :: rest) = extractLoop cur rest := by
  simp [extractLoop, hh, hp]

theorem extractLoop_added {line : List Char}
    (hh : isHunkHeader line = false) (ha : isAddedLine line = true)
    (cur : Int) (rest : List (List Char)) :
    extractLoop cur (line :: rest)
      = ⟨(line.drop 1).asString, cur + 1⟩ :: extractLoop (cur + 1) rest := by
  simp [extractLoop, hh, ha]

theorem extractLoop_other {line : List Char}
    (hh : isHunkHeader line = false) (ha : isAddedLine line = false)
    (cur : Int) (rest : List (List Char)) :
    extractLoop cur (line :: rest) = extractLoop (cur + 1) rest := by
  simp [extractLoop, hh, ha]

theorem isHunkHeader_eq_false_of_added {line : List Char}
    (ha : isAddedLine line = true) : isHunkHeader line = false := by
  cases line with
  | nil => simp [isAddedLine, pyStartsWith] at ha
  | cons x xs =>
    have hx : x = '+' := by
      by_contra hne
      simp [isAddedLine, pyStartsWith, hne] at ha
    subst hx
    simp [isHunkHeader, pyStartsWith]

theorem extractLoop_lineNumbers_increasing :
    ∀ (lines : List (List Char)) (cur : Int), headersOrdered cur lines = true →
      (∀ r ∈ extractLoop cur lines, cur < r.line_number) ∧
        ((extractLoop cur lines).map ChangedLine.line_number).Pairwise (· < ·) := by
  intro lines
  induction lines with
  | nil => intro cur _; simp [extractLoop]
  | cons line rest ih =>
    intro cur hord
    by_cases hh : isHunkHeader line = true
    · cases hp : parseHunkNewStart line with
      | some n =>
        have hord' : cur ≤ n - 1 ∧ headersOrdered (n - 1) rest = true := by
          simpa [headersOrdered, hh, hp] using hord
        rw [extractLoop_header_some hh hp]
        obtain ⟨hmem, hpw⟩ := ih (n - 1) hord'.2
        exact ⟨fun r hr => lt_of_le_of_lt hord'.1 (hmem r hr), hpw⟩
      | none =>
        have hord' : headersOrdered cur rest = true := by
          simpa [headersOrdered, hh, hp] using hord
        rw [extractLoop_header_none hh hp]
        exact ih cur hord'
    · have hh' : isHunkHeader line = false := by simpa using hh
      have hord' : headersOrdered (cur + 1) rest = true := by
        simpa [headersOrdered, hh'] using hord
      obtain ⟨hmem, hpw⟩ := ih (cur + 1) hord'
      by_cases ha : isAddedLine line = true
      · rw [extractLoop_added hh' ha]
        refine ⟨?_, ?_⟩
        · intro r hr
          rcases List.mem_cons.mp hr with hr | hr
          · subst hr; show cur < cur + 1; omega
          · have := hmem r hr; omega
        · rw [List.map_cons]
          refine List.pairwise_cons.mpr ⟨?_, hpw⟩
          intro b hb
          obtain ⟨r, hr, hrb⟩ := List.mem_map.mp hb
          have := hmem r hr
          show cur + 1 < b
          omega
      · have ha' : isAddedLine line = false := by simpa using ha
        rw [extractLoop_other hh' ha']
        exact ⟨fun r hr => by have := hmem r hr; omega, hpw⟩

/-! ## Helper lemmas about the orchestrator -/

theorem postLoop_paths (path : String) (a : StepAnalysis) :
    ∀ (l : List String) (idx : Nat), ∀ c ∈ (postLoop path a idx l).1, c.path = path := by
  intro l
  induction l with
  | nil => intro idx c hc; simp [postLoop] at hc
  | cons issue rest ih =>
    intro idx c hc
    simp only [postLoop] at hc
    cases hs : a.suggestions[idx]? with
    | none => rw [hs] at hc; simp at hc
    | some sugg =>
      rw [hs] at hc
      cases hl : a.line_number[idx]? with
      | none => rw [hl] at hc; simp at hc
      | some ln =>
        rw [hl] at hc
        simp only [List.mem_cons] at hc
        rcases hc with hc | hc
        · subst hc; rfl
        · exact ih (idx + 1) c hc

theorem postLoop_spec (path : String) (a : StepAnalysis) :
    ∀ (l : List String) (idx : Nat),
      (postLoop path a idx l).1.length
          = min l.length (min a.suggestions.length a.line_number.length - idx) ∧
        ((postLoop path a idx l).2 = none ↔
          l.length ≤ min a.suggestions.length a.line_number.length - idx ∨ l = []) := by
  intro l
  induction l with
  | nil => intro idx; simp [postLoop]
  | cons issue rest ih =>
    intro idx
    rcases Nat.lt_or_ge idx (min a.suggestions.length a.line_number.length) with hlt | hge
    · have hs : idx < a.suggestions.length := lt_of_lt_of_le hlt (Nat.min_le_left _ _)
      have hl : idx < a.line_number.length := lt_of_lt_of_le hlt (Nat.min_le_right _ _)
      have hs' : a.suggestions[idx]? = some a.suggestions[idx] := List.getElem?_eq_getElem hs
      have hl' : a.line_number[idx]? = some a.line_number[idx] := List.getElem?_eq_getElem hl
      obtain ⟨ih1, ih2⟩ := ih (idx + 1)
      simp only [postLoop, hs', hl', List.length_cons]
      constructor
      · simp only [ih1]; omega
      · rw [ih2]
        constructor
        · intro h
          rcases h with h | h
          · left; omega
          · subst h; left; simp at ih1 ⊢; omega
        · intro h
          rcases h with h | h
          · left; omega
          · simp at h
    · have hnone : a.suggestions[idx]? = none ∨ a.line_number[idx]? = none := by
        rcases min_le_iff.mp hge with h1 | h1
        · exact Or.inl (List.getElem?_eq_none h1)
        · exact Or.inr (List.getElem?_eq_none h1)
      have hz : min a.suggestions.length a.line_number.length - idx = 0 := by omega
      rcases hnone with hn | hn
      · simp only [postLoop, hn, List.length_cons, hz]
        simp
      · cases hs : a.suggestions[idx]? with
        | none =>
          simp only [postLoop, hs, List.length_cons, hz]
          simp
        | some sugg =>
          simp only [postLoop, hs, hn, List.length_cons, hz]
          simp

theorem analyzePullRequest_filter (oracle : List ChangedLine → Except String StepAnalysis) :
    ∀ files : List (String × String),
      (∀ f ∈ (analyzePullRequest oracle files).analyzed, is_step_definition f = true) ∧
        (∀ c ∈ (analyzePullRequest oracle files).comments,
          is_step_definition c.path = true) := by
  intro files
  induction files with
  | nil => simp [analyzePullRequest]
  | cons fp rest ih =>
    obtain ⟨fname, patch⟩ := fp
    by_cases hstep : is_step_definition fname = true
    · by_cases hpatch : patch = ""
      · simpa [analyzePullRequest, hstep, hpatch] using ih
      · by_cases hch : extractChangedContent patch = []
        · simpa [analyzePullRequest, hstep, hpatch, hch] using ih
        · have hpaths : ∀ (a : StepAnalysis), ∀ c ∈ (postAnalysisComment fname a).1,
              is_step_definition c.path = true := by
            intro a c hc
            rw [postLoop_paths fname a a.issues 0 c hc]
            exact hstep
          cases horacle : oracle (extractChangedContent patch) with
          | error e =>
            simp only [analyzePullRequest, hstep, if_true, if_neg hpatch, if_neg hch,
              horacle]
            exact ⟨by simpa using hstep, by simp⟩
          | ok a =>
            cases hpc : postAnalysisComment fname a with
            | mk cs err =>
              cases err with
              | some e =>
                simp only [analyzePullRequest, hstep, if_true, if_neg hpatch, if_neg hch,
                  horacle, hpc]
                refine ⟨by simpa using hstep, ?_⟩
                intro c hc
                exact hpaths a c (by rw [hpc]; exact hc)
              | none =>
                simp only [analyzePullRequest, hstep, if_true, if_neg hpatch, if_neg hch,
                  horacle, hpc]
                refine ⟨?_, ?_⟩
                · intro f hf
                  rcases List.mem_cons.mp hf with hf | hf
                  · subst hf; exact hstep
                  · exact ih.1 f hf
                · intro c hc
                  rcases List.mem_append.mp hc with hc | hc
                  · exact hpaths a c (by rw [hpc]; exact hc)
                  · exact ih.2 c hc
    · have hstep' : is_step_definition fname = false := by simpa using hstep
      simpa [analyzePullRequest, hstep'] using ih

theorem extractLoop_mem_of_added :
    ∀ (pre : List (List Char)) (rest : List (List Char)) (cur : Int) (k : Nat)
      (hk : k < pre.length),
      (∀ l ∈ pre, isHunkHeader l = false) →
      isAddedLine (pre.get ⟨k, hk⟩) = true →
      (⟨((pre.get ⟨k, hk⟩).drop 1).asString, cur + k + 1⟩ : ChangedLine)
        ∈ extractLoop cur (pre ++ rest) := by
  intro pre
  induction pre with
  | nil => intro rest cur k hk; exact absurd hk (by simp)
  | cons a t ih =>
    intro rest cur k hk hnh hadd
    have hha : isHunkHeader a = false := hnh a (List.mem_cons_self a t)
    cases k with
    | zero =>
      have hadd' : isAddedLine a = true := hadd
      rw [List.cons_append, extractLoop_added hha hadd']
      simp
    | succ k' =>
      have hk' : k' < t.length := Nat.lt_of_succ_lt_succ hk
      have hnh' : ∀ l ∈ t, isHunkHeader l = false := fun l hl =>
        hnh l (List.mem_cons_of_mem a hl)
      have hadd' : isAddedLine (t.get ⟨k', hk'⟩) = true := hadd
      have hmem := ih rest (cur + 1) k' hk' hnh' hadd'
      have harith : cur + 1 + k' + 1 = cur + (k' + 1 : Nat) + 1 := by
        push_cast
        ring
      rw [harith] at hmem
      by_cases ha : isAddedLine a = true
      · rw [List.cons_append, extractLoop_added hha ha]
        exact List.mem_cons_of_mem _ hmem
      · have ha' : isAddedLine a = false := by simpa using ha
        rw [List.cons_append, extractLoop_other hha ha']
        exact hmem

-- Scenario evaluations used while developing (kept as examples).
example : extractChangedContent "@@ -1,2 +1,3 @@\n context\n+added line\n context2"
    = [⟨"added line", 2⟩] := by decide
example : extractChangedContent "@@ -1,2 +1,2 @@\n-removed\n+added" = [⟨"added", 2⟩] := by
  decide
example : extractChangedContent "@@ -5 +7 @@\n+x" = [⟨"x", 1⟩] := by decide
example : (extractChangedContent "+a\n@@ -1,1 +1,1 @@\n+b").map ChangedLine.line_number
    = [1, 1] := by decide
example : extractChangedContent "" = [] := by decide

/-! ## Claims -/

/-- C1: the claim says removed lines ('-'-prefixed) are never recorded and do
not advance `current_line`.  The code disagrees on the second half: at the
patch `"@@ -1,2 +1,2 @@\n-removed\n+added"` the removed line is (correctly)
not recorded but DOES advance the counter, so the added line — which occupies
line 1 of the new file — is recorded with `line_number = 2`.  This theorem
evaluates the extractor at that failing input, exhibiting the perturbation the
claim (and unified-diff semantics) forbids. -/
theorem c1_removed_line_advances_counter :
    extractChangedContent "@@ -1,2 +1,2 @@\n-removed\n+added" = [⟨"added", 2⟩] ∧
      [⟨"added", 2⟩] ≠ [(⟨"added", 1⟩ : ChangedLine)] := by
  constructor <;> decide

/-- C2 counterexample: with `issues=["a","b"]`, `suggestions=["x"]`,
`line_numbers=[1,2]` the orchestrator does NOT reject the result with zero
annotations: it emits the annotation for index 0 and only then hits an
uncaught `IndexError`, contradicting the claimed validation. -/
theorem c2_counterexample :
    (postAnalysisComment "FooSteps.java" ⟨"", ["a", "b"], [1, 2], ["x"]⟩).1 ≠ [] ∧
      (postAnalysisComment "FooSteps.java" ⟨"", ["a", "b"], [1, 2], ["x"]⟩).2
        = some "IndexError" := by
  constructor <;> decide

/-- C2 (amended): the orchestrator performs no length validation.  It emits
one annotation per index up to the shortest of the three sequences, and the
iteration finishes without an exception exactly when `issues` is no longer
than the other two sequences; otherwise an uncaught `IndexError` is raised
after the partial emission. -/
theorem c2_amended_partial_emission (path : String) (a : StepAnalysis) :
    (postAnalysisComment path a).1.length
        = min a.issues.length (min a.suggestions.length a.line_number.length) ∧
      ((postAnalysisComment path a).2 = none ↔
        a.issues.length ≤ min a.suggestions.length a.line_number.length) := by
  obtain ⟨h1, h2⟩ := postLoop_spec path a a.issues 0
  refine ⟨by simpa using h1, ?_⟩
  rw [postAnalysisComment, h2]
  constructor
  · rintro (h | h)
    · simpa using h
    · simp [h]
  · intro h
    left
    simpa using h

/-- C3 counterexample: one file whose analysis call fails followed by one
file that would succeed with one finding.  Instead of the claimed one
annotation plus one recorded failure, the run posts zero annotations, never
analyzes the second file, and ends in the uncaught exception. -/
theorem c3_counterexample :
    analyzePullRequest
        (fun c => if c = extractChangedContent "@@ -1,1 +1,1 @@\n+x"
          then .error "AnalysisError"
          else .ok ⟨"", ["issue"], [1], ["fix"]⟩)
        [("ASteps.java", "@@ -1,1 +1,1 @@\n+x"), ("BSteps.java", "@@ -1,1 +1,1 @@\n+y")]
      = ⟨[], ["ASteps.java"], .error "AnalysisError"⟩ := by
  rfl

/-- C3 (amended): `analyze_pull_request` wraps nothing in `try`/`except`, so
a failing analysis call on a step-definition file with nonempty extracted
content aborts the whole batch: no annotations are posted, only that file was
analyzed, every later file is skipped, no per-file failure is recorded, and
the exception propagates to the caller. -/
theorem c3_amended_error_aborts
    (oracle : List ChangedLine → Except String StepAnalysis)
    (fname patch : String) (rest : List (String × String)) (e : String)
    (hstep : is_step_definition fname = true) (hpatch : patch ≠ "")
    (hch : extractChangedContent patch ≠ [])
    (horacle : oracle (extractChangedContent patch) = .error e) :
    analyzePullRequest oracle ((fname, patch) :: rest) = ⟨[], [fname], .error e⟩ := by
  simp only [analyzePullRequest, hstep, if_true, if_neg hpatch, if_neg hch, horacle]

/-- C3 witness. -/
theorem c3_amended_error_aborts_witness :
    analyzePullRequest (fun _ => .error "boom")
        [("XSteps.java", "@@ -1,1 +1,1 @@\n+x"), ("YSteps.java", "@@ -1,1 +1,1 @@\n+y")]
      = ⟨[], ["XSteps.java"], .error "boom"⟩ :=
  c3_amended_error_aborts (fun _ => .error "boom") "XSteps.java" "@@ -1,1 +1,1 @@\n+x"
    [("YSteps.java", "@@ -1,1 +1,1 @@\n+y")] "boom" (by decide) (by decide) (by decide) rfl

/-- C4 counterexample: the claim allows the length parts of the hunk header
to be omitted, but `int("7 @@")` raises `ValueError`, so the header
`"@@ -5 +7 @@"` is skipped and the following added line is numbered from the
unchanged counter (1) instead of the header's new-start (7). -/
theorem c4_counterexample :
    (extractChangedContent "@@ -5 +7 @@\n+x").map ChangedLine.line_number = [1] ∧
      (extractChangedContent "@@ -5 +7 @@\n+x").map ChangedLine.line_number ≠ [7] := by
  constructor <;> decide

/-- C4 (amended): for every hunk header whose new-file range carries an
explicit length — any line starting `@@` of the form
`<pre>+<digits>,<suffix>` with no `'+'` in `<pre>` (the old-range length may
still be present or absent) — the extractor sets `current_line` to
`new_start - 1`, so an added line immediately following the header is
recorded with `line_number = new_start`. -/
theorem c4_amended_newStart (pre ds suf line : List Char)
    (rest : List (List Char)) (cur : Int)
    (hh : isHunkHeader (pre ++ '+' :: (ds ++ ',' :: suf)) = true)
    (hpre : '+' ∉ pre) (hne : ds ≠ []) (hdig : ds.all Char.isDigit = true)
    (hadd : isAddedLine line = true) :
    extractLoop cur ((pre ++ '+' :: (ds ++ ',' :: suf)) :: line :: rest)
      = ⟨(line.drop 1).asString, (digitsToNat ds : Int)⟩
          :: extractLoop (digitsToNat ds) rest := by
  rw [extractLoop_header_some hh (parseHunkNewStart_of_shape pre ds suf hpre hne hdig) cur]
  rw [extractLoop_added (isHunkHeader_eq_false_of_added hadd) hadd]
  have h1 : (digitsToNat ds : Int) - 1 + 1 = (digitsToNat ds : Int) := by ring
  rw [h1]

/-- C4 witness: the header `@@ -1,2 +7,3 @@` followed by `+x`. -/
theorem c4_amended_newStart_witness :
    extractLoop 0 (("@@ -1,2 ".data ++ '+' :: ("7".data ++ ',' :: "3 @@".data))
        :: "+x".data :: [])
      = ⟨"x", (digitsToNat "7".data : Int)⟩ :: extractLoop (digitsToNat "7".data) [] :=
  c4_amended_newStart "@@ -1,2 ".data "7".data "3 @@".data "+x".data [] 0
    (by decide) (by decide) (by decide) (by decide) (by decide)

/-- C5 counterexample: a patch whose hunk header resets the counter backwards
produces the recorded line numbers `[1, 1]`, which are not strictly
increasing — the claimed invariant fails for arbitrary patch text. -/
theorem c5_counterexample :
    ¬ ((extractChangedContent "+a\n@@ -1,1 +1,1 @@\n+b").map
        ChangedLine.line_number).Pairwise (· < ·) := by
  intro hp
  have h : (extractChangedContent "+a\n@@ -1,1 +1,1 @@\n+b").map ChangedLine.line_number
      = [1, 1] := by decide
  rw [h] at hp
  exact absurd ((List.pairwise_cons.mp hp).1 1 (by simp)) (by omega)

/-- C5 (amended): the recorded `line_number` values are strictly increasing
in source order for every patch whose parsed hunk headers never move the
counter backwards (`headersOrdered`), which holds for every well-formed
unified diff whose hunks appear in increasing new-start order; a header that
jumps backwards can produce duplicates. -/
theorem c5_amended_strictly_increasing (patch : String)
    (hord : headersOrdered 0 (splitOnChar '\n' patch.data) = true) :
    ((extractChangedContent patch).map ChangedLine.line_number).Pairwise (· < ·) := by
  by_cases hp : patch.data = []
  · simp [extractChangedContent, hp]
  · rw [extractChangedContent, if_neg hp]
    exact (extractLoop_lineNumbers_increasing (splitOnChar '\n' patch.data) 0 hord).2

/-- C5 witness: a two-hunk patch with in-order hunks. -/
theorem c5_amended_strictly_increasing_witness :
    ((extractChangedContent "@@ -1,1 +1,1 @@\n+a\n@@ -10,1 +12,2 @@\n+second").map
      ChangedLine.line_number).Pairwise (· < ·) :=
  c5_amended_strictly_increasing "@@ -1,1 +1,1 @@\n+a\n@@ -10,1 +12,2 @@\n+second"
    (by decide)

/-- C6: Scenario A.  The patch `"@@ -1,2 +1,3 @@\n context\n+added line\n context2"`
extracts exactly `[{content := "added line", line_number := 2}]`: the context
line after the header advances the counter without being recorded, and the
added line is recorded with its marker stripped. -/
theorem c6_scenarioA :
    extractChangedContent "@@ -1,2 +1,3 @@\n context\n+added line\n context2"
      = [⟨"added line", 2⟩] := by
  decide

/-- C7: the extractor is total (it is a function in this embedding); an empty
patch yields `[]` without error, and a `'@@'`-prefixed line whose new-start
cannot be parsed (Python's caught `IndexError`/`ValueError`) is skipped with
`current_line` unchanged while scanning continues on the rest of the patch. -/
theorem c7_total_and_bad_header_skipped :
    extractChangedContent "" = [] ∧
      ∀ (line : List Char) (cur : Int) (rest : List (List Char)),
        isHunkHeader line = true → parseHunkNewStart line = none →
          extractLoop cur (line :: rest) = extractLoop cur rest :=
  ⟨by decide, fun line cur rest hh hp => extractLoop_header_none hh hp cur rest⟩

/-- C7 witness: the malformed header `@@ -1,2 1,3 @@` (no `'+'`). -/
theorem c7_total_and_bad_header_skipped_witness :
    extractChangedContent "" = [] ∧
      extractLoop 5 ("@@ -1,2 1,3 @@".data :: ["+z".data]) = extractLoop 5 ["+z".data] :=
  ⟨c7_total_and_bad_header_skipped.1,
    c7_total_and_bad_header_skipped.2 "@@ -1,2 1,3 @@".data 5 ["+z".data]
      (by decide) (by decide)⟩

/-- C8: a file whose path does not end in one of the recognized
step-definition suffixes is skipped entirely by the orchestrator: its name
never reaches the analysis capability and no annotation carries its path. -/
theorem c8_non_step_file_skipped
    (oracle : List ChangedLine → Except String StepAnalysis)
    (files : List (String × String)) (fp : String)
    (h : is_step_definition fp = false) :
    fp ∉ (analyzePullRequest oracle files).analyzed ∧
      ∀ c ∈ (analyzePullRequest oracle files).comments, c.path ≠ fp := by
  obtain ⟨h1, h2⟩ := analyzePullRequest_filter oracle files
  refine ⟨fun hm => ?_, fun c hc heq => ?_⟩
  · have ht := h1 fp hm
    rw [h] at ht
    exact Bool.false_ne_true ht
  · have ht := h2 c hc
    rw [heq, h] at ht
    exact Bool.false_ne_true ht

/-- C8 witness: `Main.java` is not a step-definition file. -/
theorem c8_non_step_file_skipped_witness :
    "Main.java" ∉ (analyzePullRequest (fun _ => .ok ⟨"", ["i"], [1], ["s"]⟩)
        [("Main.java", "@@ -1,1 +1,1 @@\n+x")]).analyzed ∧
      ∀ c ∈ (analyzePullRequest (fun _ => .ok ⟨"", ["i"], [1], ["s"]⟩)
        [("Main.java", "@@ -1,1 +1,1 @@\n+x")]).comments, c.path ≠ "Main.java" :=
  c8_non_step_file_skipped (fun _ => .ok ⟨"", ["i"], [1], ["s"]⟩)
    [("Main.java", "@@ -1,1 +1,1 @@\n+x")] "Main.java" (by decide)

/-- C9 counterexample: an unreadable matched file is NOT omitted from the
returned sequence — `_read_file` catches the error and returns `""`, so the
sequence keeps an (empty) entry for it. -/
theorem c9_counterexample :
    collect_features (fun _ => none) ["specs/login.feature"] ≠ [] ∧
      collect_features (fun _ => none) ["specs/login.feature"] = [""] := by
  constructor <;> decide

/-- C9 (amended): the context collection never raises: it returns exactly one
text blob per matched file, and an unreadable file contributes the empty
string (logged by the source) instead of being omitted, so collection
succeeds with partial context. -/
theorem c9_amended_empty_entry (fs : String → Option String) (files : List String) :
    (collect_features fs files).length = files.length ∧
      (collect_step_definitions fs files).length = files.length ∧
      ∀ (k : Nat) (p : String), files[k]? = some p → fs p = none →
        (collect_features fs files)[k]? = some "" ∧
          (collect_step_definitions fs files)[k]? = some "" := by
  refine ⟨by simp [collect_features], by simp [collect_step_definitions], ?_⟩
  intro k p hk hfs
  constructor <;>
    simp [collect_features, collect_step_definitions, hk, readFile, hfs]

/-- C9 witness. -/
theorem c9_amended_empty_entry_witness :
    (collect_features (fun _ => none) ["a.feature"])[0]? = some "" ∧
      (collect_step_definitions (fun _ => none) ["steps/A.java"])[0]? = some "" :=
  ⟨((c9_amended_empty_entry (fun _ => none) ["a.feature"]).2.2 0 "a.feature"
      rfl rfl).1,
    ((c9_amended_empty_entry (fun _ => none) ["steps/A.java"]).2.2 0 "steps/A.java"
      rfl rfl).2⟩

/-- C10: an added line occurring before any hunk header is still recorded:
`current_line` starts at `0` and every non-header line increments it, so the
line at 0-based index `k` of the patch — when no header occurs at or before
it — is recorded with `line_number = k + 1` if it is an added line. -/
theorem c10_added_before_first_header (patch : String) (k : Nat)
    (hk : k < (splitOnChar '\n' patch.data).length)
    (hp : patch.data ≠ [])
    (hnh : ∀ (j : Nat) (hj : j ≤ k),
      isHunkHeader ((splitOnChar '\n' patch.data).get ⟨j, lt_of_le_of_lt hj hk⟩) = false)
    (hadd : isAddedLine ((splitOnChar '\n' patch.data).get ⟨k, hk⟩) = true) :
    (⟨(((splitOnChar '\n' patch.data).get ⟨k, hk⟩).drop 1).asString, (k : Int) + 1⟩
        : ChangedLine) ∈ extractChangedContent patch := by
  rw [extractChangedContent, if_neg hp]
  have hlen : k < ((splitOnChar '\n' patch.data).take (k + 1)).length := by
    rw [List.length_take]
    omega
  have hget : ((splitOnChar '\n' patch.data).take (k + 1)).get ⟨k, hlen⟩
      = (splitOnChar '\n' patch.data).get ⟨k, hk⟩ := by
    simp [List.getElem_take]
  have hpre : ∀ l ∈ (splitOnChar '\n' patch.data).take (k + 1),
      isHunkHeader l = false := by
    intro l hl
    obtain ⟨j, hj, hjl⟩ := List.mem_iff_getElem.mp hl
    have hjk : j ≤ k := by
      have := hj
      rw [List.length_take] at this
      omega
    have hjlt : j < (splitOnChar '\n' patch.data).length := lt_of_le_of_lt hjk hk
    have : ((splitOnChar '\n' patch.data).take (k + 1))[j] =
        (splitOnChar '\n' patch.data).get ⟨j, hjlt⟩ := by
      simp [List.getElem_take]
    rw [this] at hjl
    rw [← hjl]
    exact hnh j hjk
  have hmem := extractLoop_mem_of_added ((splitOnChar '\n' patch.data).take (k + 1))
    ((splitOnChar '\n' patch.data).drop (k + 1)) 0 k hlen hpre
    (by rw [hget]; exact hadd)
  rw [List.take_append_drop, hget] at hmem
  have harith : (0 : Int) + (k : Int) + 1 = (k : Int) + 1 := by ring
  rw [harith] at hmem
  exact hmem

/-- C10 witness: the patch `"+a\nrest"` whose first line is added and precedes
any header. -/
theorem c10_added_before_first_header_witness :
    (⟨"a", (1 : Int)⟩ : ChangedLine) ∈ extractChangedContent "+a\nrest" :=
  c10_added_before_first_header "+a\nrest" 0 (by decide) (by decide)
    (fun j hj => by
      have hj0 : j = 0 := Nat.le_zero.mp hj
      subst hj0
      exact (by decide :
        isHunkHeader ((splitOnChar '\n' "+a\nrest".data).get ⟨0, Nat.succ_pos 1⟩)
          = false))
    (by decide)
